import Mathlib

set_option linter.unusedSectionVars false

/-!
# Verification of the Ladle experimental Mid-Rule chart parsing engine

This file gives a shallow embedding of `src/parsers/experimental/algorithm.rs`
(together with the `MidRule` record from `src/parser/grammars.rs`) and proves
or refutes the specification's claims about it.

Modelling conventions:
* Rust `usize` indices (`RuleIdx`, `NodeIdx`, `TableIdx`) become `Nat`.
* `Vec` becomes `List`; `VecDeque` used FIFO becomes a `List` with
  `pop_front` at the head and `push_back` appending at the tail.
* Rust indexing `v[i]` is modelled by `List.getD i default`; the separate
  bounds invariants proved below show the defaults are never consulted on
  reachable states, which is exactly the panic-freedom the source relies on.
* The `HashMap<T, Vec<RuleIdx>>` built by `make_rule_map` is only ever read
  through `get(&label)`; its observable behaviour is the function
  `ruleMapGet` below (indices of the rules whose base is the label, in
  insertion order, i.e. increasing).
* The inner `while let Some(check) = self.check_queue.pop_front()` loop is
  modelled with explicit fuel (`drain_checks`); `checkFuel` computes an upper
  bound on the number of iterations, and `drain_checks_sufficient` proves the
  queue is in fact exhausted under the bound whenever every queued check is
  well formed, so the fuelled model agrees with the source loop on all
  reachable states.
-/

/-- `MidRule` from `src/parser/grammars.rs`: result, variant, base,
predecessors (innermost first) and successors (leftmost first). -/
structure MidRule (T : Type) where
  result : T
  variant : Nat
  base : T
  predecessors : List T
  successors : List T
deriving DecidableEq

instance {T : Type} [Inhabited T] : Inhabited (MidRule T) :=
  ⟨⟨default, 0, default, [], []⟩⟩

/-- `TableEntry`: the nodes started and terminated at one chart position. -/
structure TableEntry where
  started : List Nat
  terminated : List Nat
deriving DecidableEq

instance : Inhabited TableEntry := ⟨⟨[], []⟩⟩

/-- `NodeMeta`: terminal origin or non-terminal rule plus children. -/
inductive NodeMeta where
  | terminal (token_idx : Nat)
  | nonTerminal (rule : Nat) (children : List Nat)
deriving DecidableEq

/-- `Node<T>`: label, span `[start, stop)` and metadata. -/

structure Node (T : Type) where
  label : T
  start : Nat
  stop : Nat
  meta : NodeMeta
deriving DecidableEq

/-- `CheckStage`: the two phases of a partial match. -/
inductive CheckStage where
  | right
  | left
deriving DecidableEq

/-- `Check`: an in-flight partial match. -/

structure Check where
  rule_idx : Nat
  stage : CheckStage
  pos : Nat
  leftmost : Nat
  rightmost : Nat
  base : Nat
  right_nodes : List Nat
  left_nodes : List Nat
deriving DecidableEq

/-- `State<T>`: the parser algorithm state.  The derived `rule_map` is not
stored: it is a pure function of `rules` (see `ruleMapGet`). -/
structure State (T : Type) where
  rules : List (MidRule T)
  table : List TableEntry
  nodes : List (Node T)
  node_queue : List Nat
  check_queue : List Check
deriving DecidableEq

variable {T : Type} [DecidableEq T] [Inhabited T]

/-- Placeholder node returned by out-of-bounds arena reads (the Rust code
panics there; the invariants below show reachable states never do this). -/
def defaultNode : Node T := ⟨default, 0, 0, .terminal 0⟩

/-- Observable behaviour of `make_rule_map` followed by `rule_map.get(&t)`:
the indices of the rules whose base equals `t`, in increasing order
(an absent key behaves as the empty list). -/
def ruleMapGet (rules : List (MidRule T)) (t : T) : List Nat :=
  (List.range rules.length).filter fun i => (rules.getD i default).base = t

/-- `get_node` (Rust `&self.nodes[idx.0]`). -/
def State.get_node (s : State T) (idx : Nat) : Node T :=
  s.nodes.getD idx defaultNode

/-- `get_rule` (Rust `&self.rules[idx.0]`). -/
def State.get_rule (s : State T) (idx : Nat) : MidRule T :=
  s.rules.getD idx default

/-- `get_table_entry` (Rust `&self.table[idx.0]`). -/
def State.get_table_entry (s : State T) (idx : Nat) : TableEntry :=
  s.table.getD idx default

/-- `add_node`: append the node to the arena and record its fresh handle in
`table[start].started` and `table[stop].terminated`. -/
def State.add_node (s : State T) (node : Node T) : State T × Nat :=
  let node_idx := s.nodes.length
  let t1 := s.table.set node.start
    { s.table.getD node.start default with
        started := (s.table.getD node.start default).started ++ [node_idx] }
  let t2 := t1.set node.stop
    { t1.getD node.stop default with
        terminated := (t1.getD node.stop default).terminated ++ [node_idx] }
  ({ s with table := t2, nodes := s.nodes ++ [node] }, node_idx)

/-- `State::new`: allocate `tokens.len() + 1` chart entries, then add one
terminal node per token and enqueue it on the node queue. -/
def State.new (rules : List (MidRule T)) (tokens : List T) : State T :=
  tokens.enum.foldl
    (fun s p =>
      let r := s.add_node ⟨p.2, p.1, p.1 + 1, .terminal p.1⟩
      { r.1 with node_queue := r.1.node_queue ++ [r.2] })
    ⟨rules, List.replicate (tokens.length + 1) default, [], [], []⟩

/-- `check_node`: for every rule anchored at the dequeued node's label,
either complete immediately (both context lists empty) or enqueue the
initial check.  Returns the checks pushed on the check queue and the nodes
pushed on `new_nodes`, in order. -/
def State.check_node (s : State T) (node_idx : Nat) :
    List Check × List (Node T) :=
  let base_node := s.get_node node_idx
  let leftmost := base_node.start
  let rightmost := base_node.stop
  (ruleMapGet s.rules base_node.label).foldl
    (fun acc rule_idx =>
      let rule := s.get_rule rule_idx
      if rule.successors = [] ∧ rule.predecessors = [] then
        (acc.1, acc.2 ++
          [⟨rule.result, leftmost, rightmost, .nonTerminal rule_idx [node_idx]⟩])
      else
        let stage := if rule.successors = [] then CheckStage.left
                     else CheckStage.right
        (acc.1 ++ [⟨rule_idx, stage, 0, leftmost, rightmost, node_idx, [], []⟩],
         acc.2))
    ([], [])

/-- `check_right`: scan `table[check.rightmost].started` for nodes labelled
`rule.successors[check.pos]`.  Faithful to the source, including the emission
branch reading the *pre-extension* `check.rightmost` and `check.right_nodes`. -/
def State.check_right (s : State T) (check : Check) :
    List Check × List (Node T) :=
  let rule := s.get_rule check.rule_idx
  let rule_suc_len := rule.successors.length
  let rule_pred_len := rule.predecessors.length
  let result := rule.result
  let expected := rule.successors.getD check.pos default
  (s.get_table_entry check.rightmost).started.foldl
    (fun acc suc_idx =>
      let current_node := s.get_node suc_idx
      if current_node.label = expected then
        let new_check : Check :=
          { check with rightmost := current_node.stop,
                       right_nodes := check.right_nodes ++ [suc_idx] }
        if check.pos + 1 = rule_suc_len then
          if rule_pred_len = 0 then
            (acc.1, acc.2 ++
              [⟨result, check.leftmost, check.rightmost,
                .nonTerminal check.rule_idx check.right_nodes⟩])
          else
            (acc.1 ++ [{ new_check with stage := .left, pos := 0 }], acc.2)
        else
          (acc.1 ++
            [{ new_check with pos := check.pos + 1,
                              rightmost := current_node.stop }], acc.2)
      else acc)
    ([], [])

/-- `check_left`: faithful to the source, which scans
`table[check.rightmost].terminated` (not `leftmost`) and, on completion,
emits from the pre-extension `check` fields with children
`reverse(left_nodes) ++ right_nodes`. -/
def State.check_left (s : State T) (check : Check) :
    List Check × List (Node T) :=
  let rule := s.get_rule check.rule_idx
  let rule_pred_len := rule.predecessors.length
  let result := rule.result
  let expected := rule.predecessors.getD check.pos default
  (s.get_table_entry check.rightmost).terminated.foldl
    (fun acc suc_idx =>
      let current_node := s.get_node suc_idx
      if current_node.label = expected then
        if check.pos + 1 = rule_pred_len then
          (acc.1, acc.2 ++
            [⟨result, check.leftmost, check.rightmost,
              .nonTerminal check.rule_idx
                (check.left_nodes.reverse ++ check.right_nodes)⟩])
        else
          (acc.1 ++
            [{ check with pos := check.pos + 1,
                          leftmost := current_node.start,
                          left_nodes := check.left_nodes ++ [suc_idx] }],
           acc.2)
      else acc)
    ([], [])

/-- Dispatch a check by stage, as in `run_cycle`'s second loop body. -/
def State.check_step (s : State T) (check : Check) :
    List Check × List (Node T) :=
  match check.stage with
  | .right => s.check_right check
  | .left => s.check_left check

/-- Total size of the chart's occurrence lists; bounds how many candidates a
single check dispatch can scan. -/
def tableWeight (table : List TableEntry) : Nat :=
  (table.map fun e => e.started.length + e.terminated.length).sum

/-- How far a check has progressed through its rule's context symbols. -/
def checkProgress (rules : List (MidRule T)) (c : Check) : Nat :=
  match c.stage with
  | .right => c.pos
  | .left => (rules.getD c.rule_idx default).successors.length + c.pos

/-- Remaining context symbols of a check; strictly decreases along the
checks a dispatch pushes. -/
def checkMeasure (rules : List (MidRule T)) (c : Check) : Nat :=
  (rules.getD c.rule_idx default).successors.length +
    (rules.getD c.rule_idx default).predecessors.length -
    checkProgress rules c

/-- Fuel bound for the inner check-draining loop. -/
def checkFuel (rules : List (MidRule T)) (table : List TableEntry)
    (queue : List Check) : Nat :=
  (queue.map fun c => (tableWeight table + 2) ^ checkMeasure rules c).sum

/-- The inner `while let Some(check) = check_queue.pop_front()` loop of
`run_cycle`, with explicit fuel.  Returns the accumulated `new_nodes` and the
leftover queue (empty whenever the fuel suffices, see
`drain_checks_sufficient`).  The state argument supplies `rules`, `table`,
`nodes`, which the loop never modifies. -/
def State.drain_checks (s : State T) :
    Nat → List Check → List (Node T) → List (Node T) × List Check
  | _, [], acc => (acc, [])
  | 0, c :: rest, acc => (acc, c :: rest)
  | fuel + 1, c :: rest, acc =>
    let r := s.check_step c
    s.drain_checks fuel (rest ++ r.1) (acc ++ r.2)

/-- `run_cycle`: drain the node queue through `check_node`, drain the check
queue through `check_right`/`check_left`, then add each collected new node to
the arena and enqueue its handle. -/
def State.run_cycle (s : State T) : State T :=
  let cn := s.node_queue.foldl
    (fun acc i =>
      let r := s.check_node i
      (acc.1 ++ r.1, acc.2 ++ r.2))
    ([], [])
  let queue0 := s.check_queue ++ cn.1
  let dr := s.drain_checks (checkFuel s.rules s.table queue0) queue0 cn.2
  dr.1.foldl
    (fun st nd =>
      let r := st.add_node nd
      { r.1 with node_queue := r.1.node_queue ++ [r.2] })
    { s with node_queue := [], check_queue := dr.2 }

/-- `done`: the source only tests the node queue. -/
def State.done (s : State T) : Bool :=
  s.node_queue.isEmpty

/-- Iterated `run_cycle`. -/
def State.run_cycles (s : State T) : Nat → State T
  | 0 => s
  | n + 1 => s.run_cycle.run_cycles n

/-- `run_till_done` halts iff some number of cycles reaches `done`. -/
def State.runHalts (s : State T) : Prop :=
  ∃ n, (s.run_cycles n).done = true

/-- The emitted non-terminal tuples `(label, start, stop, rule, children)`,
in arena order. -/
def emittedTuples (s : State T) : List (T × Nat × Nat × Nat × List Nat) :=
  s.nodes.filterMap fun nd =>
    match nd.meta with
    | .terminal _ => none
    | .nonTerminal r ch => some (nd.label, nd.start, nd.stop, r, ch)

/-- Labels of a list of node handles, read through the arena. -/
def childLabels (s : State T) (children : List Nat) : List T :=
  children.map fun i => (s.get_node i).label

/-! ## Concrete scenarios from the specification -/

/-- Scenario B grammar: one rule `S ← base=a, successors=[b,c]`, with
`a,b,c,S` encoded as `0,1,2,3`. -/
def rulesB : List (MidRule Nat) := [⟨3, 0, 0, [], [1, 2]⟩]

/-- Scenario B tokens `[a, b, c]`. -/
def tokensB : List Nat := [0, 1, 2]

/-- Scenario B engine state at the fixpoint (two cycles drain everything). -/
def stateB : State Nat := (State.new rulesB tokensB).run_cycles 2

/-- Scenario D grammar: one rule `S ← base=m, predecessors=[l],
successors=[r]`, with `l,m,r,S` encoded as `0,1,2,3`. -/
def rulesD : List (MidRule Nat) := [⟨3, 0, 1, [0], [2]⟩]

/-- Scenario D tokens `[l, m, r]`. -/
def tokensD : List Nat := [0, 1, 2]

/-- Scenario D engine state at the fixpoint. -/
def stateD : State Nat := (State.new rulesD tokensD).run_cycles 2

/-- A cyclic grammar: the single rule `1 ← base=1` produces its own base. -/
def rulesCyc : List (MidRule Nat) := [⟨1, 0, 1, [], []⟩]

/-- Token sequence `[1]` anchoring the cyclic rule. -/
def tokensCyc : List Nat := [1]

/-- The check that `check_node` enqueues for rule `r` (none when the rule
completes immediately). -/
def checkNodeCheck (s : State T) (node_idx : Nat) (r : Nat) : Option Check :=
  if (s.get_rule r).successors = [] ∧ (s.get_rule r).predecessors = [] then
    none
  else
    some ⟨r, (if (s.get_rule r).successors = [] then .left else .right), 0,
          (s.get_node node_idx).start, (s.get_node node_idx).stop, node_idx,
          [], []⟩

/-- The node that `check_node` emits for rule `r` (only when both context
lists are empty). -/
def checkNodeEmit (s : State T) (node_idx : Nat) (r : Nat) : Option (Node T) :=
  if (s.get_rule r).successors = [] ∧ (s.get_rule r).predecessors = [] then
    some ⟨(s.get_rule r).result, (s.get_node node_idx).start,
          (s.get_node node_idx).stop, .nonTerminal r [node_idx]⟩
  else none

/-- The check that one candidate of `check_right` pushes. -/
def checkRightCheck (s : State T) (check : Check) (idx : Nat) : Option Check :=
  if (s.get_node idx).label =
      (s.get_rule check.rule_idx).successors.getD check.pos default then
    if check.pos + 1 = (s.get_rule check.rule_idx).successors.length then
      if (s.get_rule check.rule_idx).predecessors.length = 0 then none
      else some { check with
                  stage := .left
                  pos := 0
                  rightmost := (s.get_node idx).stop
                  right_nodes := check.right_nodes ++ [idx] }
    else some { check with
                pos := check.pos + 1
                rightmost := (s.get_node idx).stop
                right_nodes := check.right_nodes ++ [idx] }
  else none

/-- The node that one candidate of `check_right` emits; note the stale
`check.rightmost` and `check.right_nodes`, faithful to the source. -/
def checkRightEmit (s : State T) (check : Check) (idx : Nat) : Option (Node T) :=
  if (s.get_node idx).label =
      (s.get_rule check.rule_idx).successors.getD check.pos default then
    if check.pos + 1 = (s.get_rule check.rule_idx).successors.length then
      if (s.get_rule check.rule_idx).predecessors.length = 0 then
        some ⟨(s.get_rule check.rule_idx).result, check.leftmost,
              check.rightmost, .nonTerminal check.rule_idx check.right_nodes⟩
      else none
    else none
  else none

/-- The check that one candidate of `check_left` pushes. -/
def checkLeftCheck (s : State T) (check : Check) (idx : Nat) : Option Check :=
  if (s.get_node idx).label =
      (s.get_rule check.rule_idx).predecessors.getD check.pos default then
    if check.pos + 1 = (s.get_rule check.rule_idx).predecessors.length then none
    else some { check with
                pos := check.pos + 1
                leftmost := (s.get_node idx).start
                left_nodes := check.left_nodes ++ [idx] }
  else none

/-- The node that one candidate of `check_left` emits; the children are
`reverse(left_nodes) ++ right_nodes` of the pre-extension check, faithful to
the source. -/
def checkLeftEmit (s : State T) (check : Check) (idx : Nat) : Option (Node T) :=
  if (s.get_node idx).label =
      (s.get_rule check.rule_idx).predecessors.getD check.pos default then
    if check.pos + 1 = (s.get_rule check.rule_idx).predecessors.length then
      some ⟨(s.get_rule check.rule_idx).result, check.leftmost, check.rightmost,
            .nonTerminal check.rule_idx
              (check.left_nodes.reverse ++ check.right_nodes)⟩
    else none
  else none

/-- A check's `pos` indexes inside the symbol list of its phase, so the
indexing `rule.successors[check.pos]` / `rule.predecessors[check.pos]`
performed on dispatch is in bounds. -/
def checkOk (rules : List (MidRule T)) (c : Check) : Prop :=
  match c.stage with
  | .right => c.pos < (rules.getD c.rule_idx default).successors.length
  | .left => c.pos < (rules.getD c.rule_idx default).predecessors.length

instance (rules : List (MidRule T)) (c : Check) : Decidable (checkOk rules c) := by
  rcases c with ⟨ri, st, pos, lm, rm, b, rn, ln⟩
  rcases st <;> exact Nat.decLt _ _

/-- Checks reference a live span: `leftmost < rightmost < table length`. -/
def checkSpanOk (s : State T) (c : Check) : Prop :=
  c.leftmost < c.rightmost ∧ c.rightmost < s.table.length

/-- Nodes occupy a live span: `start < stop < table length`. -/
def nodeSpanOk (s : State T) (nd : Node T) : Prop :=
  nd.start < nd.stop ∧ nd.stop < s.table.length

/-- The chart lists only hold live handles of nodes with the matching
start/stop. -/
def tableConsistent (s : State T) : Prop :=
  (∀ j, ∀ i ∈ (s.table.getD j default).started,
      i < s.nodes.length ∧ (s.nodes.getD i defaultNode).start = j) ∧
  (∀ j, ∀ i ∈ (s.table.getD j default).terminated,
      i < s.nodes.length ∧ (s.nodes.getD i defaultNode).stop = j)

/-- Every arena node has a live span. -/
def nodesSpanOk (s : State T) : Prop :=
  ∀ nd ∈ s.nodes, nd.start < nd.stop ∧ nd.stop < s.table.length

/-- Invariant of every reachable engine state: spans are live, the chart
lists record exactly the nodes starting/stopping at each position, queued
checks are well formed, and queued handles are live. -/
structure EngineInv (s : State T) : Prop where
  spans : nodesSpanOk s
  mem_started : ∀ i, i < s.nodes.length →
    i ∈ (s.table.getD (s.nodes.getD i defaultNode).start default).started
  mem_terminated : ∀ i, i < s.nodes.length →
    i ∈ (s.table.getD (s.nodes.getD i defaultNode).stop default).terminated
  consistent : tableConsistent s
  checks : ∀ c ∈ s.check_queue, checkOk s.rules c ∧ checkSpanOk s c
  queue : ∀ i ∈ s.node_queue, i < s.nodes.length

/-- The checks queued while draining the node queue (appended after any
pre-existing check-queue content). -/
def cycleChecks (s : State T) : List Check :=
  s.check_queue ++ (s.node_queue.flatMap fun i => (s.check_node i).1)

/-- The nodes collected in `new_nodes` while draining the node queue. -/
def cycleSeedNodes (s : State T) : List (Node T) :=
  s.node_queue.flatMap fun i => (s.check_node i).2

/-- The check-draining phase of one cycle: final `new_nodes` and leftover
queue. -/
def cycleDrain (s : State T) : List (Node T) × List Check :=
  s.drain_checks (checkFuel s.rules s.table (cycleChecks s)) (cycleChecks s)
    (cycleSeedNodes s)

/-- The final loop of `run_cycle`: add every collected node to the arena and
enqueue its handle. -/
def addLoop (st : State T) (nds : List (Node T)) : State T :=
  nds.foldl
    (fun st nd =>
      let r := st.add_node nd
      { r.1 with node_queue := r.1.node_queue ++ [r.2] })
    st

/-- One iteration of the final loop of `run_cycle`. -/
def addStep (st : State T) (nd : Node T) : State T :=
  let r := st.add_node nd
  { r.1 with node_queue := r.1.node_queue ++ [r.2] }

/-- Invariant of the cyclic run: the single rule `1 ← base=1` is installed,
the check queue is empty, and the node queue is a non-empty list of handles
of nodes labelled `1` — so every cycle strictly reproduces the situation. -/
def cycInv (s : State Nat) : Prop :=
  s.rules = rulesCyc ∧ s.check_queue = [] ∧ s.node_queue ≠ [] ∧
    ∀ i ∈ s.node_queue, (s.get_node i).label = 1

/-! ## Claim theorems: evaluation counterexamples -/

/-- C1: the claim says every emitted non-terminal's child label sequence is
`reverse(r.predecessors) ++ [r.base] ++ r.successors`.  Running scenario B
to the fixpoint, the one emitted non-terminal has children `[1]` with label
sequence `[1]`, not `[] ++ [0] ++ [1, 2]`: the source emits the stale
`check.right_nodes` (missing the final successor) and never includes the
base node among the children. -/
theorem check_children_sequence_wrong :
    emittedTuples stateB = [(3, 0, 2, 0, [1])] ∧
    childLabels stateB [1] = [1] ∧
    childLabels stateB [1] ≠
      (rulesB.getD 0 default).predecessors.reverse ++
        [(rulesB.getD 0 default).base] ++ (rulesB.getD 0 default).successors := by
  decide

/-- C2: the claim says scenario B yields exactly one `S` node spanning
`[0,3)` with children `[a-node, b-node, c-node]`.  The engine does reach a
fixpoint and does emit exactly one `S` node, but it spans `[0,2)` with the
single child `[1]` (the `b` node): the emission in `check_right` uses the
pre-extension `check.rightmost` and `check.right_nodes`. -/
theorem scenario_b_wrong_span_and_children :
    stateB.done = true ∧
    emittedTuples stateB = [(3, 0, 2, 0, [1])] ∧
    (3, 0, 3, 0, [0, 1, 2]) ∉ emittedTuples stateB := by
  decide

/-- C3: the claim says a `Left` check scans `chart[leftmost].ended_here` for
the next expected predecessor.  The source scans
`chart[check.rightmost].terminated` instead.  In scenario D the predecessor
`l` (node 0, label 0) terminates exactly at the check's `leftmost = 1`, yet
dispatching the in-flight check `⟨rule 0, Left, pos 0, leftmost 1,
rightmost 3, base 1, right=[2], left=[]⟩` finds nothing (position 3's
`terminated` holds only the `r` node), so the engine reaches its fixpoint
with no `S` node at all. -/
theorem check_left_scans_rightmost :
    stateD.done = true ∧
    emittedTuples stateD = [] ∧
    0 ∈ (stateD.get_table_entry 1).terminated ∧
    (stateD.get_node 0).label = 0 ∧
    (rulesD.getD 0 default).predecessors.getD 0 0 = 0 ∧
    stateD.check_left ⟨0, .left, 0, 1, 3, 1, [2], []⟩ = ([], []) := by
  decide

/-- C4: the claim says every emitted non-terminal starts where its first
child starts, stops where its last child stops, and its children tile its
span.  In scenario B the emitted node is node 3, spanning `[0,2)`, but its
only child (node 1) spans `[1,2)`: the child neither starts at the node's
start nor tiles the span. -/
theorem span_tiling_violated :
    (stateB.get_node 3).meta = .nonTerminal 0 [1] ∧
    (stateB.get_node 3).start = 0 ∧
    (stateB.get_node 3).stop = 2 ∧
    (stateB.get_node 1).start = 1 ∧
    (stateB.get_node 1).start ≠ (stateB.get_node 3).start := by
  decide

/-! ## List access helper lemmas -/

lemma getD_set_self {α : Type _} (l : List α) (i : Nat) (a d : α)
    (h : i < l.length) : (l.set i a).getD i d = a := by
  rw [List.getD_eq_getElem?_getD, List.getElem?_set_eq_of_lt a h]
  rfl

lemma getD_set_ne {α : Type _} (l : List α) (i j : Nat) (a d : α)
    (h : i ≠ j) : (l.set i a).getD j d = l.getD j d := by
  rw [List.getD_eq_getElem?_getD, List.getElem?_set_ne h,
    ← List.getD_eq_getElem?_getD]

lemma getD_append_left {α : Type _} (l l2 : List α) (i : Nat) (d : α)
    (h : i < l.length) : (l ++ l2).getD i d = l.getD i d := by
  rw [List.getD_eq_getElem?_getD, List.getElem?_append_left h,
    ← List.getD_eq_getElem?_getD]

lemma getD_append_len {α : Type _} (l : List α) (a d : α) :
    (l ++ [a]).getD l.length d = a := by
  rw [List.getD_eq_getElem?_getD, List.getElem?_concat_length]
  rfl

lemma getD_mem {α : Type _} (l : List α) (i : Nat) (d : α)
    (h : i < l.length) : l.getD i d ∈ l := by
  rw [List.getD_eq_getElem l d h]
  exact List.getElem_mem h

lemma getD_default_of_le {α : Type _} (l : List α) (i : Nat) (d : α)
    (h : l.length ≤ i) : l.getD i d = d := by
  rw [List.getD_eq_getElem?_getD, List.getElem?_eq_none h]
  rfl

/-- Folds whose body appends at most one element to each accumulator
component compute a pair of `filterMap`s. -/
lemma foldl_opt_pair {α β γ : Type _} (g : α → Option β) (h : α → Option γ)
    (step : List β × List γ → α → List β × List γ)
    (hstep : ∀ acc x, step acc x = (acc.1 ++ (g x).toList, acc.2 ++ (h x).toList)) :
    ∀ (l : List α) (acc : List β × List γ),
      l.foldl step acc = (acc.1 ++ l.filterMap g, acc.2 ++ l.filterMap h)
  | [], acc => by simp
  | x :: xs, acc => by
    rw [List.foldl_cons, hstep, foldl_opt_pair g h step hstep xs]
    rcases hg : g x with _ | b <;> rcases hh : h x with _ | c <;>
      simp [List.filterMap_cons, hg, hh]

/-- Folds whose body appends a pair of lists per element compute a pair of
`flatMap`s. -/
lemma foldl_pair_flatMap {α β γ : Type _} (f : α → List β × List γ) :
    ∀ (l : List α) (acc : List β × List γ),
      l.foldl (fun acc x => let r := f x; (acc.1 ++ r.1, acc.2 ++ r.2)) acc =
        (acc.1 ++ l.flatMap (fun x => (f x).1), acc.2 ++ l.flatMap (fun x => (f x).2))
  | [], acc => by simp
  | x :: xs, acc => by
    rw [List.foldl_cons, foldl_pair_flatMap f xs]
    simp

/-! ## Closed forms of the three dispatch functions -/

lemma check_node_spec (s : State T) (node_idx : Nat) :
    s.check_node node_idx =
      ((ruleMapGet s.rules (s.get_node node_idx).label).filterMap
          (checkNodeCheck s node_idx),
       (ruleMapGet s.rules (s.get_node node_idx).label).filterMap
          (checkNodeEmit s node_idx)) := by
  unfold State.check_node
  rw [foldl_opt_pair (checkNodeCheck s node_idx) (checkNodeEmit s node_idx)]
  · simp
  · intro acc r
    dsimp only [checkNodeCheck, checkNodeEmit]
    split_ifs <;> simp

lemma check_right_spec (s : State T) (check : Check) :
    s.check_right check =
      ((s.get_table_entry check.rightmost).started.filterMap
          (checkRightCheck s check),
       (s.get_table_entry check.rightmost).started.filterMap
          (checkRightEmit s check)) := by
  unfold State.check_right
  rw [foldl_opt_pair (checkRightCheck s check) (checkRightEmit s check)]
  · simp
  · intro acc idx
    dsimp only [checkRightCheck, checkRightEmit]
    split_ifs <;> simp

lemma check_left_spec (s : State T) (check : Check) :
    s.check_left check =
      ((s.get_table_entry check.rightmost).terminated.filterMap
          (checkLeftCheck s check),
       (s.get_table_entry check.rightmost).terminated.filterMap
          (checkLeftEmit s check)) := by
  unfold State.check_left
  rw [foldl_opt_pair (checkLeftCheck s check) (checkLeftEmit s check)]
  · simp
  · intro acc idx
    dsimp only [checkLeftCheck, checkLeftEmit]
    split_ifs <;> simp

/-! ## Well-formedness of checks: the position is in bounds for the phase -/

lemma default_midrule_successors : (default : MidRule T).successors = [] := rfl

lemma default_midrule_predecessors : (default : MidRule T).predecessors = [] := rfl

lemma checkOk_rule_lt (rules : List (MidRule T)) (c : Check)
    (h : checkOk rules c) : c.rule_idx < rules.length := by
  by_contra hn
  push_neg at hn
  rcases c with ⟨ri, st, pos, lm, rm, b, rn, ln⟩
  simp only at hn
  cases st <;>
    simp [checkOk, List.getD_eq_getElem?_getD, List.getElem?_eq_none hn,
      default_midrule_successors, default_midrule_predecessors] at h

lemma check_node_checks_ok (s : State T) (h : Nat) :
    ∀ c ∈ (s.check_node h).1, checkOk s.rules c := by
  intro c hc
  rw [check_node_spec] at hc
  simp only [List.mem_filterMap] at hc
  obtain ⟨r, _, he⟩ := hc
  by_cases h1 : (s.get_rule r).successors = [] ∧ (s.get_rule r).predecessors = []
  · simp [checkNodeCheck, h1] at he
  · by_cases hs : (s.get_rule r).successors = []
    · have hp : (s.get_rule r).predecessors ≠ [] := fun hp => h1 ⟨hs, hp⟩
      simp only [checkNodeCheck, if_neg h1, if_pos hs, Option.some.injEq] at he
      subst he
      simp only [checkOk]
      exact List.length_pos.mpr hp
    · simp only [checkNodeCheck, if_neg h1, if_neg hs, Option.some.injEq] at he
      subst he
      simp only [checkOk]
      exact List.length_pos.mpr hs

lemma check_right_checks_ok (s : State T) (c : Check) (hst : c.stage = .right)
    (hc : checkOk s.rules c) : ∀ c' ∈ (s.check_right c).1, checkOk s.rules c' := by
  intro c' h
  rw [check_right_spec] at h
  simp only [List.mem_filterMap] at h
  obtain ⟨idx, _, he⟩ := h
  simp only [checkOk, hst] at hc
  by_cases h1 : (s.get_node idx).label =
      (s.get_rule c.rule_idx).successors.getD c.pos default
  case neg =>
    simp only [checkRightCheck, if_neg h1] at he
    exact Option.noConfusion he
  by_cases h2 : c.pos + 1 = (s.get_rule c.rule_idx).successors.length
  · by_cases h3 : (s.get_rule c.rule_idx).predecessors.length = 0
    · simp only [checkRightCheck, if_pos h1, if_pos h2, if_pos h3] at he
      exact Option.noConfusion he
    · simp only [checkRightCheck, if_pos h1, if_pos h2, if_neg h3,
        Option.some.injEq] at he
      subst he
      simp only [checkOk]
      exact Nat.pos_of_ne_zero h3
  · simp only [checkRightCheck, if_pos h1, if_neg h2, Option.some.injEq] at he
    subst he
    simp only [checkOk, hst]
    simp only [State.get_rule] at h2 hc
    omega

lemma check_left_checks_ok (s : State T) (c : Check) (hst : c.stage = .left)
    (hc : checkOk s.rules c) : ∀ c' ∈ (s.check_left c).1, checkOk s.rules c' := by
  intro c' h
  rw [check_left_spec] at h
  simp only [List.mem_filterMap] at h
  obtain ⟨idx, _, he⟩ := h
  simp only [checkOk, hst] at hc
  by_cases h1 : (s.get_node idx).label =
      (s.get_rule c.rule_idx).predecessors.getD c.pos default
  case neg =>
    simp only [checkLeftCheck, if_neg h1] at he
    exact Option.noConfusion he
  by_cases h2 : c.pos + 1 = (s.get_rule c.rule_idx).predecessors.length
  · simp only [checkLeftCheck, if_pos h1, if_pos h2] at he
    exact Option.noConfusion he
  · simp only [checkLeftCheck, if_pos h1, if_neg h2, Option.some.injEq] at he
    subst he
    simp only [checkOk, hst]
    simp only [State.get_rule] at h2 hc
    omega

lemma check_step_checks_ok (s : State T) (c : Check) (hc : checkOk s.rules c) :
    ∀ c' ∈ (s.check_step c).1, checkOk s.rules c' := by
  rcases c with ⟨ri, st, pos, lm, rm, b, rn, ln⟩
  cases st
  · exact check_right_checks_ok s _ rfl hc
  · exact check_left_checks_ok s _ rfl hc

lemma checkMeasure_pos (rules : List (MidRule T)) (c : Check)
    (hc : checkOk rules c) : 0 < checkMeasure rules c := by
  rcases c with ⟨ri, st, pos, lm, rm, b, rn, ln⟩
  cases st <;>
    simp only [checkOk] at hc <;>
    simp only [checkMeasure, checkProgress] <;>
    omega

lemma check_right_measure_lt (s : State T) (c : Check) (hst : c.stage = .right)
    (hc : checkOk s.rules c) :
    ∀ c' ∈ (s.check_right c).1,
      checkMeasure s.rules c' < checkMeasure s.rules c := by
  intro c' h
  rw [check_right_spec] at h
  simp only [List.mem_filterMap] at h
  obtain ⟨idx, _, he⟩ := h
  simp only [checkOk, hst] at hc
  by_cases h1 : (s.get_node idx).label =
      (s.get_rule c.rule_idx).successors.getD c.pos default
  case neg =>
    simp only [checkRightCheck, if_neg h1] at he
    exact Option.noConfusion he
  by_cases h2 : c.pos + 1 = (s.get_rule c.rule_idx).successors.length
  · by_cases h3 : (s.get_rule c.rule_idx).predecessors.length = 0
    · simp only [checkRightCheck, if_pos h1, if_pos h2, if_pos h3] at he
      exact Option.noConfusion he
    · simp only [checkRightCheck, if_pos h1, if_pos h2, if_neg h3,
        Option.some.injEq] at he
      subst he
      simp only [checkMeasure, checkProgress, hst]
      simp only [State.get_rule] at hc h2
      omega
  · simp only [checkRightCheck, if_pos h1, if_neg h2, Option.some.injEq] at he
    subst he
    simp only [checkMeasure, checkProgress, hst]
    simp only [State.get_rule] at hc h2
    omega

lemma check_left_measure_lt (s : State T) (c : Check) (hst : c.stage = .left)
    (hc : checkOk s.rules c) :
    ∀ c' ∈ (s.check_left c).1,
      checkMeasure s.rules c' < checkMeasure s.rules c := by
  intro c' h
  rw [check_left_spec] at h
  simp only [List.mem_filterMap] at h
  obtain ⟨idx, _, he⟩ := h
  simp only [checkOk, hst] at hc
  by_cases h1 : (s.get_node idx).label =
      (s.get_rule c.rule_idx).predecessors.getD c.pos default
  case neg =>
    simp only [checkLeftCheck, if_neg h1] at he
    exact Option.noConfusion he
  by_cases h2 : c.pos + 1 = (s.get_rule c.rule_idx).predecessors.length
  · simp only [checkLeftCheck, if_pos h1, if_pos h2] at he
    exact Option.noConfusion he
  · simp only [checkLeftCheck, if_pos h1, if_neg h2, Option.some.injEq] at he
    subst he
    simp only [checkMeasure, checkProgress, hst]
    simp only [State.get_rule] at hc h2
    omega

lemma check_step_measure_lt (s : State T) (c : Check) (hc : checkOk s.rules c) :
    ∀ c' ∈ (s.check_step c).1,
      checkMeasure s.rules c' < checkMeasure s.rules c := by
  rcases c with ⟨ri, st, pos, lm, rm, b, rn, ln⟩
  cases st
  · exact check_right_measure_lt s _ rfl hc
  · exact check_left_measure_lt s _ rfl hc

lemma default_tableentry_started : (default : TableEntry).started = [] := rfl

lemma default_tableentry_terminated : (default : TableEntry).terminated = [] := rfl

lemma entry_lists_le_weight (table : List TableEntry) (j : Nat) :
    (table.getD j default).started.length ≤ tableWeight table ∧
    (table.getD j default).terminated.length ≤ tableWeight table := by
  rcases Nat.lt_or_ge j table.length with hj | hj
  · have hmem : table.getD j default ∈ table := getD_mem _ _ _ hj
    have hle :
        (table.getD j default).started.length +
          (table.getD j default).terminated.length ≤ tableWeight table :=
      List.single_le_sum (fun y _ => Nat.zero_le y) _
        (List.mem_map_of_mem _ hmem)
    omega
  · rw [getD_default_of_le _ _ _ hj]
    rw [default_tableentry_started, default_tableentry_terminated]
    exact ⟨Nat.zero_le _, Nat.zero_le _⟩

lemma check_step_count_le (s : State T) (c : Check) :
    (s.check_step c).1.length ≤ tableWeight s.table := by
  rcases c with ⟨ri, st, pos, lm, rm, b, rn, ln⟩
  cases st
  · rw [show (s.check_step ⟨ri, .right, pos, lm, rm, b, rn, ln⟩) =
      s.check_right ⟨ri, .right, pos, lm, rm, b, rn, ln⟩ from rfl]
    rw [check_right_spec]
    exact le_trans (List.length_filterMap_le _ _)
      (entry_lists_le_weight s.table _).1
  · rw [show (s.check_step ⟨ri, .left, pos, lm, rm, b, rn, ln⟩) =
      s.check_left ⟨ri, .left, pos, lm, rm, b, rn, ln⟩ from rfl]
    rw [check_left_spec]
    exact le_trans (List.length_filterMap_le _ _)
      (entry_lists_le_weight s.table _).2

/-! ## The check-draining loop: equations, sufficiency of the fuel bound,
and a generic invariant -/

lemma drain_checks_nil (s : State T) (fuel : Nat) (acc : List (Node T)) :
    s.drain_checks fuel [] acc = (acc, []) := by
  cases fuel <;> simp [State.drain_checks]

lemma drain_checks_zero (s : State T) (c : Check) (rest : List Check)
    (acc : List (Node T)) :
    s.drain_checks 0 (c :: rest) acc = (acc, c :: rest) := by
  simp [State.drain_checks]

lemma drain_checks_cons (s : State T) (fuel : Nat) (c : Check)
    (rest : List Check) (acc : List (Node T)) :
    s.drain_checks (fuel + 1) (c :: rest) acc =
      s.drain_checks fuel (rest ++ (s.check_step c).1)
        (acc ++ (s.check_step c).2) := by
  simp [State.drain_checks]

lemma checkFuel_nil (rules : List (MidRule T)) (table : List TableEntry) :
    checkFuel rules table [] = 0 := rfl

lemma checkFuel_cons (rules : List (MidRule T)) (table : List TableEntry)
    (c : Check) (rest : List Check) :
    checkFuel rules table (c :: rest) =
      (tableWeight table + 2) ^ checkMeasure rules c +
        checkFuel rules table rest := by
  simp [checkFuel]

lemma checkFuel_append (rules : List (MidRule T)) (table : List TableEntry)
    (q1 q2 : List Check) :
    checkFuel rules table (q1 ++ q2) =
      checkFuel rules table q1 + checkFuel rules table q2 := by
  simp [checkFuel]

/-- One dispatched check consumes strictly more fuel than all the checks it
pushes together: the pushed checks have strictly smaller measure and there
are at most `tableWeight` of them. -/
lemma checkFuel_step_lt (s : State T) (c : Check) (hc : checkOk s.rules c) :
    checkFuel s.rules s.table (s.check_step c).1 <
      (tableWeight s.table + 2) ^ checkMeasure s.rules c := by
  set K := tableWeight s.table + 2 with hK
  set m := checkMeasure s.rules c with hm
  have hm1 : 1 ≤ m := checkMeasure_pos s.rules c hc
  have hbound : ∀ x ∈ (s.check_step c).1.map
      (fun c' => K ^ checkMeasure s.rules c'), x ≤ K ^ (m - 1) := by
    intro x hx
    simp only [List.mem_map] at hx
    obtain ⟨c', hc', rfl⟩ := hx
    have hlt : checkMeasure s.rules c' < m := check_step_measure_lt s c hc c' hc'
    exact Nat.pow_le_pow_right (by omega) (by omega)
  have hsum : checkFuel s.rules s.table (s.check_step c).1 ≤
      (s.check_step c).1.length * K ^ (m - 1) := by
    have := List.sum_le_card_nsmul
      ((s.check_step c).1.map (fun c' => K ^ checkMeasure s.rules c'))
      (K ^ (m - 1)) hbound
    simpa [checkFuel, hK] using this
  have hlen : (s.check_step c).1.length ≤ tableWeight s.table :=
    check_step_count_le s c
  have hpow : 0 < K ^ (m - 1) := Nat.pos_pow_of_pos _ (by omega)
  calc checkFuel s.rules s.table (s.check_step c).1
      ≤ (s.check_step c).1.length * K ^ (m - 1) := hsum
    _ ≤ tableWeight s.table * K ^ (m - 1) :=
        Nat.mul_le_mul_right _ hlen
    _ < K * K ^ (m - 1) := by
        apply Nat.mul_lt_mul_of_lt_of_le (by omega) (le_refl _) hpow
    _ = K ^ m := by
        rw [← Nat.pow_succ']
        congr 1
        omega

/-- With fuel at least `checkFuel` of the queue, and every queued check well
formed, the loop exhausts the queue: the fuelled model computes exactly what
the source's unbounded `while` loop computes. -/
theorem drain_checks_sufficient (s : State T) :
    ∀ (fuel : Nat) (queue : List Check) (acc : List (Node T)),
      (∀ c ∈ queue, checkOk s.rules c) →
      checkFuel s.rules s.table queue ≤ fuel →
      (s.drain_checks fuel queue acc).2 = [] := by
  intro fuel
  induction fuel with
  | zero =>
    intro queue acc hok hf
    cases queue with
    | nil => rw [drain_checks_nil]
    | cons c rest =>
      rw [checkFuel_cons] at hf
      have : 0 < (tableWeight s.table + 2) ^ checkMeasure s.rules c :=
        Nat.pos_pow_of_pos _ (by omega)
      omega
  | succ fuel ih =>
    intro queue acc hok hf
    cases queue with
    | nil => rw [drain_checks_nil]
    | cons c rest =>
      rw [drain_checks_cons]
      have hcok : checkOk s.rules c := hok c (List.mem_cons_self _ _)
      apply ih
      · intro c' hc'
        rcases List.mem_append.mp hc' with h | h
        · exact hok c' (List.mem_cons_of_mem _ h)
        · exact check_step_checks_ok s c hcok c' h
      · rw [checkFuel_append]
        rw [checkFuel_cons] at hf
        have := checkFuel_step_lt s c hcok
        omega

/-- Generic invariant for the draining loop: a check property preserved by
dispatch, together with a node property guaranteed by dispatch, holds of all
emitted nodes and of any leftover checks. -/
lemma drain_checks_invariant (s : State T) (P : Check → Prop)
    (Q : Node T → Prop)
    (hP : ∀ c, P c → ∀ c' ∈ (s.check_step c).1, P c')
    (hQ : ∀ c, P c → ∀ nd ∈ (s.check_step c).2, Q nd) :
    ∀ (fuel : Nat) (queue : List Check) (acc : List (Node T)),
      (∀ c ∈ queue, P c) → (∀ nd ∈ acc, Q nd) →
      (∀ nd ∈ (s.drain_checks fuel queue acc).1, Q nd) ∧
      (∀ c ∈ (s.drain_checks fuel queue acc).2, P c) := by
  intro fuel
  induction fuel with
  | zero =>
    intro queue acc hq ha
    cases queue with
    | nil => rw [drain_checks_nil]; exact ⟨ha, by simp⟩
    | cons c rest => rw [drain_checks_zero]; exact ⟨ha, hq⟩
  | succ fuel ih =>
    intro queue acc hq ha
    cases queue with
    | nil => rw [drain_checks_nil]; exact ⟨ha, by simp⟩
    | cons c rest =>
      rw [drain_checks_cons]
      have hcok : P c := hq c (List.mem_cons_self _ _)
      apply ih
      · intro c' hc'
        rcases List.mem_append.mp hc' with h | h
        · exact hq c' (List.mem_cons_of_mem _ h)
        · exact hP c hcok c' h
      · intro nd hnd
        rcases List.mem_append.mp hnd with h | h
        · exact ha nd h
        · exact hQ c hcok nd h

/-! ## Decomposition of `run_cycle` -/

lemma node_queue_fold (s : State T) (l : List Nat)
    (acc : List Check × List (Node T)) :
    l.foldl
      (fun acc i =>
        let r := s.check_node i
        (acc.1 ++ r.1, acc.2 ++ r.2))
      acc =
      (acc.1 ++ (l.flatMap fun i => (s.check_node i).1),
       acc.2 ++ (l.flatMap fun i => (s.check_node i).2)) :=
  foldl_pair_flatMap (fun i => s.check_node i) l acc

lemma run_cycle_eq (s : State T) :
    s.run_cycle =
      addLoop
        { s with node_queue := [], check_queue := (cycleDrain s).2 }
        (cycleDrain s).1 := by
  unfold State.run_cycle addLoop cycleDrain cycleChecks cycleSeedNodes
  rw [node_queue_fold]
  simp

lemma addLoop_nil (st : State T) : addLoop st [] = st := rfl

lemma addLoop_cons (st : State T) (nd : Node T) (nds : List (Node T)) :
    addLoop st (nd :: nds) = addLoop (addStep st nd) nds := rfl

lemma addStep_nodes (st : State T) (nd : Node T) :
    (addStep st nd).nodes = st.nodes ++ [nd] := rfl

lemma addStep_node_queue (st : State T) (nd : Node T) :
    (addStep st nd).node_queue = st.node_queue ++ [st.nodes.length] := rfl

lemma addStep_rules (st : State T) (nd : Node T) :
    (addStep st nd).rules = st.rules := rfl

lemma addStep_check_queue (st : State T) (nd : Node T) :
    (addStep st nd).check_queue = st.check_queue := rfl

lemma addStep_table_length (st : State T) (nd : Node T) :
    (addStep st nd).table.length = st.table.length := by
  simp [addStep, State.add_node]

/-- Chart entry contents after a double `set` as performed by `add_node`. -/
lemma double_set_getD (A : List TableEntry) (a b n j : Nat) (hab : a ≠ b)
    (ha : a < A.length) (hb : b < A.length) (e1 e2 : TableEntry)
    (he1 : e1.started = (A.getD a default).started ++ [n])
    (he1t : e1.terminated = (A.getD a default).terminated)
    (he2 : e2.started = ((A.set a e1).getD b default).started)
    (he2t : e2.terminated = ((A.set a e1).getD b default).terminated ++ [n]) :
    (((A.set a e1).set b e2).getD j default).started =
      (A.getD j default).started ++ (if j = a then [n] else []) ∧
    (((A.set a e1).set b e2).getD j default).terminated =
      (A.getD j default).terminated ++ (if j = b then [n] else []) := by
  have h1b : (A.set a e1).getD b default = A.getD b default :=
    getD_set_ne A a b e1 default hab
  by_cases hja : j = a
  · subst hja
    rw [getD_set_ne (A.set j e1) b j e2 default (fun h => hab h.symm),
      getD_set_self A j e1 default ha, if_pos rfl, if_neg hab]
    exact ⟨he1, by rw [he1t, List.append_nil]⟩
  · by_cases hjb : j = b
    · subst hjb
      rw [getD_set_self (A.set a e1) j e2 default (by simpa using hb),
        if_neg hja, if_pos rfl]
      exact ⟨by rw [he2, h1b, List.append_nil], by rw [he2t, h1b]⟩
    · rw [getD_set_ne (A.set a e1) b j e2 default (fun h => hjb h.symm),
        getD_set_ne A a j e1 default (fun h => hja h.symm),
        if_neg hja, if_neg hjb]
      simp

/-- Effect of `add_node` on each chart entry: the fresh handle is appended
to `started` at the node's start and to `terminated` at the node's stop. -/
lemma addStep_table (st : State T) (nd : Node T) (hab : nd.start ≠ nd.stop)
    (ha : nd.start < st.table.length) (hb : nd.stop < st.table.length)
    (j : Nat) :
    ((addStep st nd).table.getD j default).started =
      (st.table.getD j default).started ++
        (if j = nd.start then [st.nodes.length] else []) ∧
    ((addStep st nd).table.getD j default).terminated =
      (st.table.getD j default).terminated ++
        (if j = nd.stop then [st.nodes.length] else []) :=
  double_set_getD st.table nd.start nd.stop st.nodes.length j hab ha hb _ _
    rfl rfl rfl rfl

/-! ## The reachable-state invariant -/

lemma ruleMapGet_mem (rules : List (MidRule T)) (t : T) (r : Nat)
    (h : r ∈ ruleMapGet rules t) :
    r < rules.length ∧ (rules.getD r default).base = t := by
  unfold ruleMapGet at h
  simp only [List.mem_filter, List.mem_range, decide_eq_true_eq] at h
  exact h

lemma check_node_check_fields (s : State T) (i : Nat) :
    ∀ c ∈ (s.check_node i).1,
      c.leftmost = (s.get_node i).start ∧ c.rightmost = (s.get_node i).stop := by
  intro c hc
  rw [check_node_spec] at hc
  simp only [List.mem_filterMap] at hc
  obtain ⟨r, _, he⟩ := hc
  unfold checkNodeCheck at he
  split_ifs at he <;>
    first
      | exact Option.noConfusion he
      | (simp only [Option.some.injEq] at he
         subst he
         exact ⟨rfl, rfl⟩)

lemma check_node_emit_fields (s : State T) (i : Nat) :
    ∀ nd ∈ (s.check_node i).2,
      nd.start = (s.get_node i).start ∧ nd.stop = (s.get_node i).stop ∧
        ∃ r ∈ s.rules, nd.label = r.result := by
  intro nd hnd
  rw [check_node_spec] at hnd
  simp only [List.mem_filterMap] at hnd
  obtain ⟨r, hr, he⟩ := hnd
  have hrlt := (ruleMapGet_mem s.rules _ r hr).1
  unfold checkNodeEmit at he
  split_ifs at he <;>
    first
      | exact Option.noConfusion he
      | (simp only [Option.some.injEq] at he
         subst he
         exact ⟨rfl, rfl, s.get_rule r, getD_mem _ _ _ hrlt, rfl⟩)

lemma check_step_emit_span (s : State T) (c : Check) (hc : checkSpanOk s c) :
    ∀ nd ∈ (s.check_step c).2, nodeSpanOk s nd := by
  intro nd hnd
  rcases c with ⟨ri, st, pos, lm, rm, b, rn, ln⟩
  obtain ⟨hlr, hrt⟩ := hc
  cases st
  all_goals
    simp only [State.check_step] at hnd
  · rw [check_right_spec] at hnd
    simp only [List.mem_filterMap] at hnd
    obtain ⟨idx, _, he⟩ := hnd
    unfold checkRightEmit at he
    split_ifs at he <;>
      first
        | exact Option.noConfusion he
        | (simp only [Option.some.injEq] at he
           subst he
           exact ⟨hlr, hrt⟩)
  · rw [check_left_spec] at hnd
    simp only [List.mem_filterMap] at hnd
    obtain ⟨idx, _, he⟩ := hnd
    unfold checkLeftEmit at he
    split_ifs at he <;>
      first
        | exact Option.noConfusion he
        | (simp only [Option.some.injEq] at he
           subst he
           exact ⟨hlr, hrt⟩)

lemma check_step_push_span (s : State T) (htc : tableConsistent s)
    (hns : nodesSpanOk s) (c : Check) (hc : checkSpanOk s c) :
    ∀ c' ∈ (s.check_step c).1, checkSpanOk s c' := by
  intro c' hc'
  rcases c with ⟨ri, st, pos, lm, rm, b, rn, ln⟩
  obtain ⟨hlr, hrt⟩ := hc
  cases st
  all_goals
    simp only [State.check_step] at hc'
  · rw [check_right_spec] at hc'
    simp only [List.mem_filterMap] at hc'
    obtain ⟨idx, hidx, he⟩ := hc'
    have hmem : idx < s.nodes.length ∧
        (s.nodes.getD idx defaultNode).start = rm :=
      htc.1 rm idx (by simpa [State.get_table_entry] using hidx)
    have hspan : (s.get_node idx).start < (s.get_node idx).stop ∧
        (s.get_node idx).stop < s.table.length := by
      have := hns _ (getD_mem s.nodes idx defaultNode hmem.1)
      simpa [State.get_node] using this
    have hstart : (s.get_node idx).start = rm := by
      simpa [State.get_node] using hmem.2
    obtain ⟨hs1, hs2⟩ := hspan
    rw [hstart] at hs1
    unfold checkRightCheck at he
    split_ifs at he <;>
      first
        | exact Option.noConfusion he
        | (simp only [Option.some.injEq] at he
           subst he
           exact ⟨lt_trans hlr hs1, hs2⟩)
  · rw [check_left_spec] at hc'
    simp only [List.mem_filterMap] at hc'
    obtain ⟨idx, hidx, he⟩ := hc'
    have hmem : idx < s.nodes.length ∧
        (s.nodes.getD idx defaultNode).stop = rm :=
      htc.2 rm idx (by simpa [State.get_table_entry] using hidx)
    have hspan : (s.get_node idx).start < (s.get_node idx).stop ∧
        (s.get_node idx).stop < s.table.length := by
      have := hns _ (getD_mem s.nodes idx defaultNode hmem.1)
      simpa [State.get_node] using this
    have hstop : (s.get_node idx).stop = rm := by
      simpa [State.get_node] using hmem.2
    obtain ⟨hs1, hs2⟩ := hspan
    rw [hstop] at hs1
    unfold checkLeftCheck at he
    split_ifs at he <;>
      first
        | exact Option.noConfusion he
        | (simp only [Option.some.injEq] at he
           subst he
           exact ⟨hs1, hrt⟩)

lemma addStep_engine_inv (st : State T) (nd : Node T) (hI : EngineInv st)
    (hnd : nodeSpanOk st nd) : EngineInv (addStep st nd) := by
  obtain ⟨hspan, hstop⟩ := hnd
  have hab : nd.start ≠ nd.stop := Nat.ne_of_lt hspan
  have ha : nd.start < st.table.length := lt_trans hspan hstop
  have htab := addStep_table st nd hab ha hstop
  have hnodes := addStep_nodes st nd
  have hlen := addStep_table_length st nd
  have hnlen : (addStep st nd).nodes.length = st.nodes.length + 1 := by
    rw [hnodes]; simp
  constructor
  · intro x hx
    rw [hnodes] at hx
    rw [hlen]
    rcases List.mem_append.mp hx with h | h
    · exact hI.spans x h
    · rw [List.mem_singleton.mp h]
      exact ⟨hspan, hstop⟩
  · intro i hi
    rcases Nat.lt_or_ge i st.nodes.length with hlt | hge
    · have hgetn : (addStep st nd).nodes.getD i defaultNode =
          st.nodes.getD i defaultNode := by
        rw [hnodes]; exact getD_append_left _ _ _ _ hlt
      rw [hgetn, (htab _).1]
      exact List.mem_append_left _ (hI.mem_started i hlt)
    · have hieq : i = st.nodes.length := by omega
      subst hieq
      have hgetn : (addStep st nd).nodes.getD st.nodes.length defaultNode = nd := by
        rw [hnodes]; exact getD_append_len _ _ _
      rw [hgetn, (htab nd.start).1, if_pos rfl]
      exact List.mem_append_right _ (by simp)
  · intro i hi
    rcases Nat.lt_or_ge i st.nodes.length with hlt | hge
    · have hgetn : (addStep st nd).nodes.getD i defaultNode =
          st.nodes.getD i defaultNode := by
        rw [hnodes]; exact getD_append_left _ _ _ _ hlt
      rw [hgetn, (htab _).2]
      exact List.mem_append_left _ (hI.mem_terminated i hlt)
    · have hieq : i = st.nodes.length := by omega
      subst hieq
      have hgetn : (addStep st nd).nodes.getD st.nodes.length defaultNode = nd := by
        rw [hnodes]; exact getD_append_len _ _ _
      rw [hgetn, (htab nd.stop).2, if_pos rfl]
      exact List.mem_append_right _ (by simp)
  · constructor
    · intro j i hmem
      rw [(htab j).1] at hmem
      rcases List.mem_append.mp hmem with h | h
      · obtain ⟨hl, hs⟩ := hI.consistent.1 j i h
        refine ⟨by omega, ?_⟩
        rw [hnodes, getD_append_left _ _ _ _ hl]
        exact hs
      · by_cases hj : j = nd.start
        · rw [if_pos hj] at h
          simp only [List.mem_singleton] at h
          subst h
          refine ⟨by omega, ?_⟩
          rw [hnodes, getD_append_len]
          exact hj.symm
        · rw [if_neg hj] at h
          exact absurd h (List.not_mem_nil _)
    · intro j i hmem
      rw [(htab j).2] at hmem
      rcases List.mem_append.mp hmem with h | h
      · obtain ⟨hl, hs⟩ := hI.consistent.2 j i h
        refine ⟨by omega, ?_⟩
        rw [hnodes, getD_append_left _ _ _ _ hl]
        exact hs
      · by_cases hj : j = nd.stop
        · rw [if_pos hj] at h
          simp only [List.mem_singleton] at h
          subst h
          refine ⟨by omega, ?_⟩
          rw [hnodes, getD_append_len]
          exact hj.symm
        · rw [if_neg hj] at h
          exact absurd h (List.not_mem_nil _)
  · intro c hc
    rw [addStep_check_queue] at hc
    obtain ⟨h1, h2, h3⟩ := hI.checks c hc
    exact ⟨h1, h2, by rw [hlen]; exact h3⟩
  · intro i hi
    rw [addStep_node_queue] at hi
    rcases List.mem_append.mp hi with h | h
    · have := hI.queue i h
      omega
    · simp only [List.mem_singleton] at h
      omega

lemma addLoop_engine_inv (nds : List (Node T)) :
    ∀ st : State T, EngineInv st → (∀ nd ∈ nds, nodeSpanOk st nd) →
      EngineInv (addLoop st nds) := by
  induction nds with
  | nil => exact fun st h _ => h
  | cons nd nds ih =>
    intro st hI hnds
    rw [addLoop_cons]
    apply ih
    · exact addStep_engine_inv st nd hI (hnds nd (List.mem_cons_self _ _))
    · intro x hx
      obtain ⟨h1, h2⟩ := hnds x (List.mem_cons_of_mem _ hx)
      exact ⟨h1, by rw [addStep_table_length]; exact h2⟩

lemma cycleChecks_ok (s : State T) (hI : EngineInv s) :
    ∀ c ∈ cycleChecks s, checkOk s.rules c ∧ checkSpanOk s c := by
  intro c hc
  unfold cycleChecks at hc
  rcases List.mem_append.mp hc with h | h
  · exact hI.checks c h
  · simp only [List.mem_flatMap] at h
    obtain ⟨i, hi, hci⟩ := h
    refine ⟨check_node_checks_ok s i c hci, ?_⟩
    obtain ⟨hl, hr⟩ := check_node_check_fields s i c hci
    have hilt := hI.queue i hi
    have hspan := hI.spans _ (getD_mem s.nodes i defaultNode hilt)
    unfold checkSpanOk
    rw [hl, hr]
    simpa [State.get_node] using hspan

lemma cycleSeedNodes_ok (s : State T) (hI : EngineInv s) :
    ∀ nd ∈ cycleSeedNodes s, nodeSpanOk s nd := by
  intro nd hnd
  unfold cycleSeedNodes at hnd
  simp only [List.mem_flatMap] at hnd
  obtain ⟨i, hi, hci⟩ := hnd
  obtain ⟨hl, hr, _⟩ := check_node_emit_fields s i nd hci
  have hilt := hI.queue i hi
  have hspan := hI.spans _ (getD_mem s.nodes i defaultNode hilt)
  unfold nodeSpanOk
  rw [hl, hr]
  simpa [State.get_node] using hspan

lemma cycleDrain_ok (s : State T) (hI : EngineInv s) :
    (∀ nd ∈ (cycleDrain s).1, nodeSpanOk s nd) ∧
    (∀ c ∈ (cycleDrain s).2, checkOk s.rules c ∧ checkSpanOk s c) := by
  unfold cycleDrain
  apply drain_checks_invariant s
    (fun c => checkOk s.rules c ∧ checkSpanOk s c) (nodeSpanOk s)
  · intro c hc c' h
    exact ⟨check_step_checks_ok s c hc.1 c' h,
      check_step_push_span s hI.consistent hI.spans c hc.2 c' h⟩
  · intro c hc nd h
    exact check_step_emit_span s c hc.2 nd h
  · exact cycleChecks_ok s hI
  · exact cycleSeedNodes_ok s hI

/-- On reachable states the drain always exhausts its queue: the leftover in
the model's `check_queue` is empty, exactly like the source's loop. -/
lemma cycleDrain_leftover (s : State T) (hI : EngineInv s) :
    (cycleDrain s).2 = [] := by
  unfold cycleDrain
  apply drain_checks_sufficient
  · exact fun c hc => (cycleChecks_ok s hI c hc).1
  · exact le_refl _

lemma run_cycle_engine_inv (s : State T) (hI : EngineInv s) :
    EngineInv s.run_cycle := by
  rw [run_cycle_eq]
  have hdr := cycleDrain_ok s hI
  have hI1 : EngineInv
      ({ s with node_queue := [], check_queue := (cycleDrain s).2 } : State T) := by
    constructor
    · exact hI.spans
    · exact hI.mem_started
    · exact hI.mem_terminated
    · exact hI.consistent
    · exact fun c hc => hdr.2 c hc
    · exact fun i hi => absurd hi (List.not_mem_nil _)
  exact addLoop_engine_inv _ _ hI1 (fun nd hnd => hdr.1 nd hnd)

lemma replicate_getD_default (n j : Nat) :
    (List.replicate n (default : TableEntry)).getD j default = default := by
  rcases Nat.lt_or_ge j n with h | h
  · rw [List.getD_eq_getElem _ _ (by simpa using h)]
    exact List.getElem_replicate _ _
  · exact getD_default_of_le _ _ _ (by simpa using h)

lemma new_eq (rules : List (MidRule T)) (tokens : List T) :
    State.new rules tokens =
      addLoop ⟨rules, List.replicate (tokens.length + 1) default, [], [], []⟩
        (tokens.enum.map fun p => ⟨p.2, p.1, p.1 + 1, .terminal p.1⟩) := by
  unfold State.new addLoop
  rw [List.foldl_map]

lemma engine_inv_init (rules : List (MidRule T)) (tokens : List T) :
    EngineInv
      (⟨rules, List.replicate (tokens.length + 1) default, [], [], []⟩ :
        State T) := by
  constructor
  · exact fun nd hnd => absurd hnd (List.not_mem_nil _)
  · intro i hi
    simp at hi
  · intro i hi
    simp at hi
  · constructor <;>
      intro j i hmem <;>
      rw [replicate_getD_default] at hmem <;>
      first
        | rw [default_tableentry_started] at hmem
          exact absurd hmem (List.not_mem_nil _)
        | rw [default_tableentry_terminated] at hmem
          exact absurd hmem (List.not_mem_nil _)
  · exact fun c hc => absurd hc (List.not_mem_nil _)
  · exact fun i hi => absurd hi (List.not_mem_nil _)

lemma engine_inv_new (rules : List (MidRule T)) (tokens : List T) :
    EngineInv (State.new rules tokens) := by
  rw [new_eq]
  apply addLoop_engine_inv _ _ (engine_inv_init rules tokens)
  intro nd hnd
  simp only [List.mem_map] at hnd
  obtain ⟨p, hp, hpe⟩ := hnd
  have hplt := List.fst_lt_of_mem_enum hp
  subst hpe
  exact ⟨Nat.lt_succ_self _, by simpa using Nat.succ_lt_succ hplt⟩

lemma engine_inv_cycles (s : State T) (hI : EngineInv s) (n : Nat) :
    EngineInv (s.run_cycles n) := by
  induction n generalizing s with
  | zero => exact hI
  | succ n ih => exact ih s.run_cycle (run_cycle_engine_inv s hI)

lemma addLoop_table_length (nds : List (Node T)) :
    ∀ st : State T, (addLoop st nds).table.length = st.table.length := by
  induction nds with
  | nil => exact fun st => rfl
  | cons nd nds ih =>
    intro st
    rw [addLoop_cons, ih, addStep_table_length]

lemma addLoop_rules (nds : List (Node T)) :
    ∀ st : State T, (addLoop st nds).rules = st.rules := by
  induction nds with
  | nil => exact fun st => rfl
  | cons nd nds ih =>
    intro st
    rw [addLoop_cons, ih, addStep_rules]

lemma run_cycle_table_length (s : State T) :
    s.run_cycle.table.length = s.table.length := by
  rw [run_cycle_eq, addLoop_table_length]

lemma run_cycle_rules (s : State T) : s.run_cycle.rules = s.rules := by
  rw [run_cycle_eq, addLoop_rules]

lemma run_cycles_table_length (n : Nat) :
    ∀ s : State T, (s.run_cycles n).table.length = s.table.length := by
  induction n with
  | zero => exact fun s => rfl
  | succ n ih =>
    intro s
    show ((s.run_cycle).run_cycles n).table.length = _
    rw [ih, run_cycle_table_length]

lemma run_cycles_rules (n : Nat) :
    ∀ s : State T, (s.run_cycles n).rules = s.rules := by
  induction n with
  | zero => exact fun s => rfl
  | succ n ih =>
    intro s
    show ((s.run_cycle).run_cycles n).rules = _
    rw [ih, run_cycle_rules]

lemma new_table_length (rules : List (MidRule T)) (tokens : List T) :
    (State.new rules tokens).table.length = tokens.length + 1 := by
  rw [new_eq, addLoop_table_length]
  simp

lemma new_rules (rules : List (MidRule T)) (tokens : List T) :
    (State.new rules tokens).rules = rules := by
  rw [new_eq, addLoop_rules]

/-- Position `N` of a reachable chart has an empty `started` list: every
node satisfies `start < stop ≤ N`, so none starts at end-of-input. -/
lemma last_started_empty (s : State T) (hI : EngineInv s) (hpos : Nat)
    (hlen : hpos + 1 = s.table.length) :
    (s.table.getD hpos default).started = [] := by
  by_contra hne
  obtain ⟨i, hi⟩ := List.exists_mem_of_ne_nil _ hne
  obtain ⟨hlt, hstart⟩ := hI.consistent.1 hpos i hi
  have hspan := hI.spans _ (getD_mem s.nodes i defaultNode hlt)
  omega

/-! ## Claim theorems: invariants, safety, determinism -/

/-- C5: for every node in the arena of any reachable state (any number of
cycles from any freshly constructed engine), the node's handle is a member
of `chart[start].started_here` and of `chart[stop].ended_here`; `add_node`
is the only operation that creates nodes and it appends the handle to both
lists in the same operation. -/
theorem node_in_chart_lists (rules : List (MidRule T)) (tokens : List T)
    (n : Nat) (i : Nat)
    (hi : i < ((State.new rules tokens).run_cycles n).nodes.length) :
    i ∈ (((State.new rules tokens).run_cycles n).table.getD
        ((((State.new rules tokens).run_cycles n).nodes.getD i
          defaultNode).start) default).started ∧
    i ∈ (((State.new rules tokens).run_cycles n).table.getD
        ((((State.new rules tokens).run_cycles n).nodes.getD i
          defaultNode).stop) default).terminated := by
  have hI := engine_inv_cycles _ (engine_inv_new rules tokens) n
  exact ⟨hI.mem_started i hi, hI.mem_terminated i hi⟩

theorem node_in_chart_lists_witness :
    3 < ((State.new rulesB tokensB).run_cycles 2).nodes.length ∧
    (3 ∈ (((State.new rulesB tokensB).run_cycles 2).table.getD
        ((((State.new rulesB tokensB).run_cycles 2).nodes.getD 3
          defaultNode).start) default).started ∧
     3 ∈ (((State.new rulesB tokensB).run_cycles 2).table.getD
        ((((State.new rulesB tokensB).run_cycles 2).nodes.getD 3
          defaultNode).stop) default).terminated) :=
  ⟨by decide, node_in_chart_lists rulesB tokensB 2 3 (by decide)⟩

/-- C6: when node `h` is dequeued, then for each rule index `r` under the
node's label, `check_node` emits `⟨rule.result, h.start, h.stop,
NonTerminal r [h]⟩` immediately when both context lists are empty, and
otherwise enqueues exactly one initial check `⟨r, stage, 0, h.start,
h.stop, h, [], []⟩` whose stage is `Right` iff the successors are
non-empty; `checkNodeCheck`/`checkNodeEmit` spell out exactly these
per-rule values. -/
theorem check_node_dispatch (s : State T) (h : Nat) :
    s.check_node h =
      ((ruleMapGet s.rules (s.get_node h).label).filterMap
        (checkNodeCheck s h),
       (ruleMapGet s.rules (s.get_node h).label).filterMap
        (checkNodeEmit s h)) :=
  check_node_spec s h

/-- C8: a `Right`-phase check whose `rightmost` is the end-of-input position
`N = tokens.length` is dropped: position `N` is a valid chart index
(`N < N + 1 = table length`), its `started` list is empty on every reachable
state, so `check_right` pushes no check and emits no node. -/
theorem check_at_end_of_input_drops (rules : List (MidRule T))
    (tokens : List T) (n : Nat) (c : Check)
    (hstage : c.stage = CheckStage.right)
    (hr : c.rightmost = tokens.length)
    (hexp : c.pos <
      (((State.new rules tokens).run_cycles n).get_rule
        c.rule_idx).successors.length) :
    c.rightmost < ((State.new rules tokens).run_cycles n).table.length ∧
    ((State.new rules tokens).run_cycles n).check_right c = ([], []) := by
  have hI := engine_inv_cycles _ (engine_inv_new rules tokens) n
  have hlen : ((State.new rules tokens).run_cycles n).table.length =
      tokens.length + 1 := by
    rw [run_cycles_table_length, new_table_length]
  constructor
  · omega
  · rw [check_right_spec]
    have hempty :
        (((State.new rules tokens).run_cycles n).get_table_entry
          c.rightmost).started = [] := by
      unfold State.get_table_entry
      apply last_started_empty _ hI
      omega
    rw [hempty]
    rfl

theorem check_at_end_of_input_drops_witness :
    (Check.stage ⟨0, .right, 1, 0, 3, 0, [1], []⟩ = CheckStage.right) ∧
    (Check.rightmost ⟨0, .right, 1, 0, 3, 0, [1], []⟩ = tokensB.length) ∧
    ((3 : Nat) <
      ((State.new rulesB tokensB).run_cycles 0).table.length ∧
     ((State.new rulesB tokensB).run_cycles 0).check_right
        ⟨0, .right, 1, 0, 3, 0, [1], []⟩ = ([], [])) :=
  ⟨rfl, rfl,
   check_at_end_of_input_drops rulesB tokensB 0 ⟨0, .right, 1, 0, 3, 0, [1], []⟩
     rfl rfl (by decide)⟩

/-- C9: the engine is a pure function of the grammar and the token sequence:
two runs on equal inputs produce, after any equal number of cycles, the very
same emitted `(label, start, stop, rule, children)` tuples.  The source's
only aliasing of a hash map is `rule_map.get`, modelled by the deterministic
`ruleMapGet`, so no nondeterminism enters the run. -/
theorem engine_deterministic (rules1 rules2 : List (MidRule T))
    (tokens1 tokens2 : List T) (n : Nat)
    (hr : rules1 = rules2) (ht : tokens1 = tokens2) :
    emittedTuples ((State.new rules1 tokens1).run_cycles n) =
      emittedTuples ((State.new rules2 tokens2).run_cycles n) := by
  subst hr
  subst ht
  rfl

theorem engine_deterministic_witness :
    emittedTuples ((State.new rulesB tokensB).run_cycles 2) =
      emittedTuples ((State.new rulesB tokensB).run_cycles 2) :=
  engine_deterministic rulesB rulesB tokensB tokensB 2 rfl rfl

/-- C10: every check the engine ever enqueues satisfies
`pos < predecessors.length` in phase `Left` and `pos < successors.length`
in phase `Right` (`checkOk`), so `rule.successors[check.pos]` in
`check_right` and `rule.predecessors[check.pos]` in `check_left` never
index out of bounds: the seeds produced by `check_node` satisfy `checkOk`,
and each dispatch preserves it on everything it pushes. -/
theorem check_positions_in_bounds (s : State T) (h : Nat) (c : Check) :
    (∀ c' ∈ (s.check_node h).1, checkOk s.rules c') ∧
    (c.stage = CheckStage.right → checkOk s.rules c →
      ∀ c' ∈ (s.check_right c).1, checkOk s.rules c') ∧
    (c.stage = CheckStage.left → checkOk s.rules c →
      ∀ c' ∈ (s.check_left c).1, checkOk s.rules c') :=
  ⟨check_node_checks_ok s h,
   fun hst hc => check_right_checks_ok s c hst hc,
   fun hst hc => check_left_checks_ok s c hst hc⟩

/-! ## Claim theorems: termination -/

lemma flatMap_nil_of {α β : Type _} (l : List α) (f : α → List β)
    (h : ∀ x ∈ l, f x = []) : l.flatMap f = [] := by
  induction l with
  | nil => rfl
  | cons x xs ih =>
    rw [List.flatMap_cons, h x (List.mem_cons_self _ _),
      ih (fun y hy => h y (List.mem_cons_of_mem _ hy))]
    rfl

lemma addLoop_check_queue (nds : List (Node T)) :
    ∀ st : State T, (addLoop st nds).check_queue = st.check_queue := by
  induction nds with
  | nil => exact fun st => rfl
  | cons nd nds ih =>
    intro st
    rw [addLoop_cons, ih, addStep_check_queue]

lemma addLoop_node_queue_length (nds : List (Node T)) :
    ∀ st : State T,
      (addLoop st nds).node_queue.length =
        st.node_queue.length + nds.length := by
  induction nds with
  | nil => exact fun st => rfl
  | cons nd nds ih =>
    intro st
    rw [addLoop_cons, ih, addStep_node_queue]
    simp
    omega

lemma addLoop_queue_prop (Q : Node T → Prop) (nds : List (Node T)) :
    ∀ st : State T, (∀ nd ∈ nds, Q nd) →
      (∀ i ∈ st.node_queue, i < st.nodes.length ∧ Q (st.get_node i)) →
      ∀ i ∈ (addLoop st nds).node_queue,
        i < (addLoop st nds).nodes.length ∧ Q ((addLoop st nds).get_node i) := by
  induction nds with
  | nil => exact fun st _ hq => hq
  | cons nd nds ih =>
    intro st hnds hq
    rw [addLoop_cons]
    apply ih
    · exact fun x hx => hnds x (List.mem_cons_of_mem _ hx)
    · intro i hi
      rw [addStep_node_queue] at hi
      rcases List.mem_append.mp hi with h | h
      · obtain ⟨hlt, hQ⟩ := hq i h
        refine ⟨?_, ?_⟩
        · rw [addStep_nodes]
          simp only [List.length_append, List.length_singleton]
          omega
        · show Q ((addStep st nd).nodes.getD i defaultNode)
          rw [addStep_nodes, getD_append_left _ _ _ _ hlt]
          exact hQ
      · simp only [List.mem_singleton] at h
        subst h
        refine ⟨?_, ?_⟩
        · rw [addStep_nodes]
          simp
        · show Q ((addStep st nd).nodes.getD st.nodes.length defaultNode)
          rw [addStep_nodes, getD_append_len]
          exact hnds nd (List.mem_cons_self _ _)

lemma run_cycle_check_queue (s : State T) :
    s.run_cycle.check_queue = (cycleDrain s).2 := by
  rw [run_cycle_eq, addLoop_check_queue]

lemma run_cycles_succ (s : State T) (n : Nat) :
    s.run_cycles (n + 1) = (s.run_cycles n).run_cycle := by
  induction n generalizing s with
  | zero => rfl
  | succ n ih =>
    show (s.run_cycle).run_cycles (n + 1) = _
    rw [ih]
    rfl

lemma new_check_queue (rules : List (MidRule T)) (tokens : List T) :
    (State.new rules tokens).check_queue = [] := by
  rw [new_eq, addLoop_check_queue]

lemma cyc_check_node (s : State Nat) (hrules : s.rules = rulesCyc) (i : Nat)
    (hl : (s.get_node i).label = 1) :
    s.check_node i =
      ([], [⟨1, (s.get_node i).start, (s.get_node i).stop,
        .nonTerminal 0 [i]⟩]) := by
  rw [check_node_spec, hl]
  have hmap : ruleMapGet s.rules 1 = [0] := by
    rw [hrules]
    decide
  have h0 : s.get_rule 0 = ⟨1, 0, 1, [], []⟩ := by
    unfold State.get_rule
    rw [hrules]
    rfl
  rw [hmap]
  simp [checkNodeCheck, checkNodeEmit, h0]

lemma cycInv_run_cycle (s : State Nat) (h : cycInv s) : cycInv s.run_cycle := by
  obtain ⟨hrules, hcq, hne, hlab⟩ := h
  have hmap_eq : ∀ l : List Nat, (∀ i ∈ l, (s.get_node i).label = 1) →
      l.flatMap (fun i => (s.check_node i).2) =
        l.map (fun i => (⟨1, (s.get_node i).start, (s.get_node i).stop,
          .nonTerminal 0 [i]⟩ : Node Nat)) := by
    intro l
    induction l with
    | nil => exact fun _ => rfl
    | cons x xs ih =>
      intro hx
      rw [List.flatMap_cons, List.map_cons,
        cyc_check_node s hrules x (hx x (List.mem_cons_self _ _)),
        ih (fun y hy => hx y (List.mem_cons_of_mem _ hy))]
      rfl
  have hchecks : cycleChecks s = [] := by
    unfold cycleChecks
    rw [hcq]
    rw [List.nil_append]
    exact flatMap_nil_of _ _ (fun i hi => by
      rw [cyc_check_node s hrules i (hlab i hi)])
  have hseed : cycleSeedNodes s =
      s.node_queue.map (fun i => (⟨1, (s.get_node i).start,
        (s.get_node i).stop, .nonTerminal 0 [i]⟩ : Node Nat)) :=
    hmap_eq s.node_queue hlab
  have hdrain : cycleDrain s = (cycleSeedNodes s, []) := by
    unfold cycleDrain
    rw [hchecks, drain_checks_nil]
  rw [run_cycle_eq, hdrain]
  refine ⟨?_, ?_, ?_, ?_⟩
  · rw [addLoop_rules]
    exact hrules
  · rw [addLoop_check_queue]
  · intro hcon
    have hlen := addLoop_node_queue_length (T := Nat) (cycleSeedNodes s)
      { s with node_queue := [], check_queue := [] }
    rw [hcon, hseed] at hlen
    simp only [List.length_nil, List.length_map] at hlen
    have hzero : s.node_queue.length = 0 := by omega
    exact hne (List.eq_nil_of_length_eq_zero hzero)
  · have := addLoop_queue_prop (T := Nat) (fun nd => nd.label = 1)
      (cycleSeedNodes s) { s with node_queue := [], check_queue := [] }
      (by
        intro nd hnd
        rw [hseed] at hnd
        simp only [List.mem_map] at hnd
        obtain ⟨i, _, rfl⟩ := hnd
        rfl)
      (fun i hi => absurd hi (List.not_mem_nil _))
    exact fun i hi => (this i hi).2

/-- C7: with the cyclic grammar `1 ← base=1` and input `[1]`, `run_till_done`
never halts: the engine has no dedup, so each cycle dequeues the previous
node labelled `1` and emits a fresh node labelled `1` over the same span,
keeping the node queue non-empty forever. -/
theorem cyclic_grammar_diverges :
    ¬ (State.new rulesCyc tokensCyc).runHalts := by
  rintro ⟨n, hn⟩
  have hinv : ∀ m, cycInv ((State.new rulesCyc tokensCyc).run_cycles m) := by
    intro m
    induction m with
    | zero =>
      unfold cycInv
      decide
    | succ m ih =>
      rw [run_cycles_succ]
      exact cycInv_run_cycle _ ih
  obtain ⟨_, _, hne, _⟩ := hinv n
  exact hne (List.isEmpty_iff.mp hn)

lemma check_step_emit_result (s : State T) (c : Check)
    (hc : checkOk s.rules c) :
    ∀ nd ∈ (s.check_step c).2, ∃ r ∈ s.rules, nd.label = r.result := by
  intro nd hnd
  have hlt := checkOk_rule_lt s.rules c hc
  rcases c with ⟨ri, st, pos, lm, rm, b, rn, ln⟩
  simp only at hlt
  cases st
  all_goals simp only [State.check_step] at hnd
  · rw [check_right_spec] at hnd
    simp only [List.mem_filterMap] at hnd
    obtain ⟨idx, _, he⟩ := hnd
    unfold checkRightEmit at he
    split_ifs at he <;>
      first
        | exact Option.noConfusion he
        | (simp only [Option.some.injEq] at he
           subst he
           exact ⟨s.get_rule ri, getD_mem _ _ _ hlt, rfl⟩)
  · rw [check_left_spec] at hnd
    simp only [List.mem_filterMap] at hnd
    obtain ⟨idx, _, he⟩ := hnd
    unfold checkLeftEmit at he
    split_ifs at he <;>
      first
        | exact Option.noConfusion he
        | (simp only [Option.some.injEq] at he
           subst he
           exact ⟨s.get_rule ri, getD_mem _ _ _ hlt, rfl⟩)

lemma ruleMapGet_result_nil (rules : List (MidRule T))
    (hsep : ∀ r ∈ rules, ∀ r2 ∈ rules, r.result ≠ r2.base)
    (t : T) (ht : ∃ r ∈ rules, t = r.result) :
    ruleMapGet rules t = [] := by
  obtain ⟨r, hr, rfl⟩ := ht
  unfold ruleMapGet
  apply List.filter_eq_nil_iff.mpr
  intro i hi
  simp only [List.mem_range] at hi
  simp only [decide_eq_true_eq]
  intro h
  exact hsep r hr (rules.getD i default) (getD_mem _ _ _ hi) h.symm

lemma check_node_no_rules (s : State T) (i : Nat)
    (h : ruleMapGet s.rules (s.get_node i).label = []) :
    s.check_node i = ([], []) := by
  rw [check_node_spec, h]
  rfl

/-- C7 amended: for every finite grammar in which no rule's result symbol is
the base symbol of any rule, and every finite token sequence, `run_till_done`
halts — the node queue is already empty after two cycles, because every node
emitted in the first cycle carries a result label, and such a label anchors
no rule.  (The unamended claim, quantifying over cyclic grammars too, is
refuted by `cyclic_grammar_diverges`.) -/
theorem run_halts_of_no_result_base (rules : List (MidRule T))
    (tokens : List T)
    (hsep : ∀ r ∈ rules, ∀ r2 ∈ rules, r.result ≠ r2.base) :
    (State.new rules tokens).runHalts := by
  refine ⟨2, ?_⟩
  have hInew := engine_inv_new rules tokens
  set s1 := (State.new rules tokens).run_cycle with hs1
  have hrules1 : s1.rules = rules := by
    rw [hs1, run_cycle_rules, new_rules]
  have hcq1 : s1.check_queue = [] := by
    rw [hs1, run_cycle_check_queue]
    exact cycleDrain_leftover _ hInew
  have hseeds0 : ∀ nd ∈ cycleSeedNodes (State.new rules tokens),
      ∃ r ∈ (State.new rules tokens).rules, nd.label = r.result := by
    intro x hx
    unfold cycleSeedNodes at hx
    simp only [List.mem_flatMap] at hx
    obtain ⟨i, _, hxi⟩ := hx
    exact (check_node_emit_fields _ i x hxi).2.2
  have hdr := drain_checks_invariant (State.new rules tokens)
    (fun c => checkOk (State.new rules tokens).rules c)
    (fun nd => ∃ r ∈ (State.new rules tokens).rules, nd.label = r.result)
    (fun c hc c' h => check_step_checks_ok _ c hc c' h)
    (fun c hc nd h => check_step_emit_result _ c hc nd h)
    (checkFuel (State.new rules tokens).rules (State.new rules tokens).table
      (cycleChecks (State.new rules tokens)))
    (cycleChecks (State.new rules tokens))
    (cycleSeedNodes (State.new rules tokens))
    (fun c hc => (cycleChecks_ok _ hInew c hc).1)
    hseeds0
  have hq1 : ∀ i ∈ s1.node_queue,
      i < s1.nodes.length ∧ ∃ r ∈ rules, (s1.get_node i).label = r.result := by
    rw [hs1, run_cycle_eq]
    apply addLoop_queue_prop (fun nd => ∃ r ∈ rules, nd.label = r.result)
    · intro nd hnd
      obtain ⟨r, hr, he⟩ := hdr.1 nd hnd
      exact ⟨r, by rwa [new_rules] at hr, he⟩
    · exact fun i hi => absurd hi (List.not_mem_nil _)
  have hcn : ∀ i ∈ s1.node_queue, s1.check_node i = ([], []) := by
    intro i hi
    apply check_node_no_rules
    obtain ⟨_, r, hr, hlab⟩ := hq1 i hi
    rw [hrules1]
    exact ruleMapGet_result_nil rules hsep _ ⟨r, hr, hlab⟩
  have hchecks2 : cycleChecks s1 = [] := by
    unfold cycleChecks
    rw [hcq1, List.nil_append]
    exact flatMap_nil_of _ _ (fun i hi => by rw [hcn i hi])
  have hseed2 : cycleSeedNodes s1 = [] := by
    unfold cycleSeedNodes
    exact flatMap_nil_of _ _ (fun i hi => by rw [hcn i hi])
  have hdrain2 : cycleDrain s1 = ([], []) := by
    unfold cycleDrain
    rw [hchecks2, hseed2, drain_checks_nil]
  have h2 : (State.new rules tokens).run_cycles 2 = s1.run_cycle := by
    rw [run_cycles_succ, run_cycles_succ]
    rfl
  rw [h2, run_cycle_eq s1, hdrain2, addLoop_nil]
  rfl

theorem run_halts_of_no_result_base_witness :
    (∀ r ∈ rulesB, ∀ r2 ∈ rulesB, r.result ≠ r2.base) ∧
      (State.new rulesB tokensB).runHalts :=
  ⟨by decide, run_halts_of_no_result_base rulesB tokensB (by decide)⟩
